import Mathlib

/-!
# Verification of the realtime audio output manager

Shallow embedding of `bots/bot_controller/realtime_audio_output_manager.py`,
the realtime audio playback pipeline: chunk accumulation into fixed
0.1-second frames, sample-rate conversion, the playback worker loop, the
pause gate and the worker lifecycle.

Modelling conventions:
* Python `bytes` values are `List Nat` (each element a byte value);
* 16-bit PCM samples are `Int`;
* wall-clock timestamps and durations (Python floats from `time.time()`)
  are `ℚ`;
* the mutable `RealtimeAudioOutputManager` object is an explicit `Manager`
  record, every method becomes a function from (and to) `Manager`;
* Python exceptions are explicit `error` constructors; the worker thread's
  body catches only `queue.Empty`, so any other exception terminates the
  run, which the worker model makes explicit.
-/

/-- Interpret a value modulo 2^16 as a signed 16-bit integer: the value of
a little-endian `np.int16` / `audioop` sample. -/
def toInt16 (n : Nat) : Int :=
  if n % 65536 < 32768 then ((n % 65536 : Nat) : Int)
  else ((n % 65536 : Nat) : Int) - 65536

/-- `np.frombuffer(chunk, dtype=np.int16)` : parse a byte string as
little-endian 16-bit samples.  `none` models the `ValueError` raised when
the byte length is not a multiple of the 2-byte sample width. -/
def bytesToSamples : List Nat → Option (List Int)
  | [] => some []
  | [_] => none
  | lo :: hi :: rest => (bytesToSamples rest).map (fun s => toInt16 (lo + 256 * hi) :: s)

/-- The two little-endian bytes of a 16-bit sample (`np.int16` wraps its
argument modulo 2^16). -/
def int16Bytes (i : Int) : List Nat :=
  [(Int.emod i 65536).toNat % 256, (Int.emod i 65536).toNat / 256]

/-- `samples.tobytes()` : serialize 16-bit samples little-endian. -/
def samplesToBytes (s : List Int) : List Nat := s.flatMap int16Bytes

/-- Modelled from the spec: `audioop.ratecv` (Python standard library, not
part of this repository's sources) is the generic fallback rate-conversion
routine.  The spec (§4.2) describes it as a generic rate converter from
`src` to `dst` rate with per-call state reset; it is modelled as a
duration-preserving resampler that emits `⌊n·dst/src⌋` samples, each taken
from the nearest input position. -/
def ratecvModel (samples : List Int) (src dst : Nat) : List Int :=
  (List.range (samples.length * dst / src)).map (fun i => samples.getD (i * src / dst) 0)

/-- Result of a Python call that returns a byte string or raises. -/
inductive ConvResult where
  | ok : List Nat → ConvResult
  | error : ConvResult
deriving DecidableEq, Repr

/-- `_upsample(chunk, src_rate, dst_rate)` (source lines 15-28): identity
when the rates agree, otherwise `audioop.ratecv` (which raises on
non-positive rates and on a byte length that is not a whole number of
16-bit frames). -/
def upsampleFallback (chunk : List Nat) (src_rate dst_rate : Int) : ConvResult :=
  if src_rate = dst_rate then .ok chunk
  else if src_rate ≤ 0 ∨ dst_rate ≤ 0 then .error
  else
    match bytesToSamples chunk with
    | none => .error
    | some s => .ok (samplesToBytes (ratecvModel s src_rate.toNat dst_rate.toNat))

/-- `upsample_chunk_to_output_sample_rate(chunk, sample_rate)` (source
lines 115-136).  Python `//` and `%` on ints are floor division and
matching modulus, hence `Int.fdiv` / `Int.fmod`; `sample_rate = 0` raises
`ZeroDivisionError` at the `//`. -/
def upsample_chunk_to_output_sample_rate (output_sample_rate : Int)
    (chunk : List Nat) (sample_rate : Int) : ConvResult :=
  if sample_rate = output_sample_rate then .ok chunk
  else if sample_rate = 0 then .error
  else
    let k := Int.fdiv output_sample_rate sample_rate
    if Int.fmod output_sample_rate sample_rate ≠ 0 ∨ k ≤ 1 then
      upsampleFallback chunk sample_rate output_sample_rate
    else
      match bytesToSamples chunk with
      | none => .error
      | some s => .ok (samplesToBytes (s.flatMap (fun x => List.replicate k.toNat x)))

/-- The manager's mutable state (`__init__`, source lines 32-49).  The
callback and the pacing multiplier are not state that the verified
operations read, so they are kept outside the record; `threads` is the
history of spawned worker threads (`true` = still alive), with
`self.audio_thread` being the most recently spawned one
(`threads.getLast?`). -/
structure Manager where
  audio_queue : List (List Nat × Int)
  stop_audio_thread : Bool
  threads : List Bool
  inner_chunk_buffer : List Nat
  last_chunk_time : ℚ
  pause_until_timestamp : ℚ
  output_sample_rate : Int
deriving DecidableEq, Repr

/-- A freshly constructed manager at time `now` (source lines 32-49;
`last_chunk_time = time.time()`). -/
def initManager (output_sample_rate : Int) (now : ℚ) : Manager :=
  { audio_queue := []
    stop_audio_thread := false
    threads := []
    inner_chunk_buffer := []
    last_chunk_time := now
    pause_until_timestamp := 0
    output_sample_rate := output_sample_rate }

/-- `pause_for(duration_seconds)` (source lines 160-168). -/
def pause_for (m : Manager) (now duration_seconds : ℚ) : Manager :=
  if duration_seconds ≤ 0 then m
  else
    let pause_until := now + duration_seconds
    if pause_until > m.pause_until_timestamp then
      { m with pause_until_timestamp := pause_until }
    else m

/-- `chunk_size_bytes = int(self.bytes_per_sample * self.chunk_length_seconds * sample_rate)`
(source line 58) with `bytes_per_sample = 2` and `chunk_length_seconds = 0.1`.
For every realistic rate (|rate| below 2^50) the Python float expression
`int(2 * 0.1 * sample_rate)` truncates to the same integer as the exact
value `0.2 · sample_rate`, i.e. `(2 * sample_rate) tdiv 10` (truncation
toward zero, as Python `int()`). -/
def chunk_size_bytes (sample_rate : Int) : Int := Int.tdiv (2 * sample_rate) 10

/-- Python slice `l[:k]` for an arbitrary `int` index `k`. -/
def pySliceTo (l : List Nat) (k : Int) : List Nat :=
  if 0 ≤ k then l.take k.toNat else l.take (l.length - (-k).toNat)

/-- Python slice `l[k:]` for an arbitrary `int` index `k`. -/
def pySliceFrom (l : List Nat) (k : Int) : List Nat :=
  if 0 ≤ k then l.drop k.toNat else l.drop (l.length - (-k).toNat)

/-- Result of running the `while` loop of `add_chunk` (source lines 59-61)
for at most `fuel` iterations: `done frames rest` when the loop exited with
`frames` the chunks passed to `add_chunk_inner` (in order) and `rest` the
final buffer; `running frames rest` when the bound was reached with the
loop condition still true (so the real loop is still running). -/
inductive SliceResult where
  | done : List (List Nat) → List Nat → SliceResult
  | running : List (List Nat) → List Nat → SliceResult
deriving DecidableEq, Repr

/-- The `while len(self.inner_chunk_buffer) >= chunk_size_bytes` loop of
`add_chunk` (source lines 59-61), fuelled. -/
def addChunkLoop (frameSize : Int) : Nat → List Nat → List (List Nat) → SliceResult
  | 0, buf, acc =>
      if frameSize ≤ (buf.length : Int) then .running acc buf else .done acc buf
  | fuel + 1, buf, acc =>
      if frameSize ≤ (buf.length : Int) then
        addChunkLoop frameSize fuel (pySliceFrom buf frameSize) (acc ++ [pySliceTo buf frameSize])
      else .done acc buf

/-- `add_chunk_inner(chunk, sample_rate)` (source lines 63-76): enqueue the
frame, refresh `last_chunk_time`, and if no worker thread is alive spawn
one under the lifecycle lock (`_start_audio_thread`, lines 78-82, resets
the stop flag).  The unlocked fast-path check and the re-check under the
lock coincide in this sequential (per-event atomic) model. -/
def add_chunk_inner (m : Manager) (now : ℚ) (chunk : List Nat) (sample_rate : Int) : Manager :=
  let m1 := { m with
    audio_queue := m.audio_queue ++ [(chunk, sample_rate)]
    last_chunk_time := now }
  if m1.threads.getLast? = some true then m1
  else { m1 with stop_audio_thread := false, threads := m1.threads ++ [true] }

/-- `add_chunk(chunk, sample_rate)` (source lines 51-61): drop the residual
buffer if more than 0.15 s passed since the previous call, refresh
`last_chunk_time`, append the chunk, then slice and forward full frames.
`none` models non-termination of the slicing loop (which removes
`chunk_size_bytes ≤ 0` bytes per iteration and therefore never exits
within any fuel bound when the frame size is not positive; a fuel of
`buffer length + 1` suffices whenever the frame size is positive). -/
def add_chunk (m : Manager) (now : ℚ) (chunk : List Nat) (sample_rate : Int) : Option Manager :=
  let m1 := if now - m.last_chunk_time > Rat.divInt 3 20 then { m with inner_chunk_buffer := [] } else m
  let m2 := { m1 with
    last_chunk_time := now
    inner_chunk_buffer := m1.inner_chunk_buffer ++ chunk }
  match addChunkLoop (chunk_size_bytes sample_rate) (m2.inner_chunk_buffer.length + 1)
      m2.inner_chunk_buffer [] with
  | .running _ _ => none
  | .done frames rest =>
      some { frames.foldl (fun acc f => add_chunk_inner acc now f sample_rate) m2 with
              inner_chunk_buffer := rest }

/-- The exception that escapes the worker's loop body: the `try` of
`_process_audio_queue` (source lines 89-111) catches only `queue.Empty`,
so any other exception raised while handling an item propagates. -/
inductive ItemError where
  | malformedChunk
  | sinkError
deriving DecidableEq, Repr

/-- Handling of one dequeued item inside the worker loop (source lines
91-105): convert the chunk to the output rate, then invoke the sink
callback.  `sinkFails` tells, for a given converted byte string, whether
`play_raw_audio_callback` raises. -/
def processItem (output_sample_rate : Int) (sinkFails : List Nat → Bool)
    (item : List Nat × Int) : Except ItemError (List Nat × Int) :=
  match upsample_chunk_to_output_sample_rate output_sample_rate item.1 item.2 with
  | .error => .error .malformedChunk
  | .ok out => if sinkFails out then .error .sinkError else .ok (out, output_sample_rate)

/-- A sink that never raises. -/
def sinkNeverFails : List Nat → Bool := fun _ => false

/-- A sink that always raises. -/
def sinkAlwaysFails : List Nat → Bool := fun _ => true

/-- The worker loop of `_process_audio_queue` (source lines 84-113) run
over a queue snapshot: items are processed strictly in order; the first
exception other than `queue.Empty` is uncaught and terminates the thread,
leaving the remaining items unplayed; an empty queue ends in the idle
timeout path.  Returns the list of sink invocations `(bytes, rate)` in
order, together with the uncaught exception if one occurred. -/
def runWorker (output_sample_rate : Int) (sinkFails : List Nat → Bool) :
    List (List Nat × Int) → List (List Nat × Int) × Option ItemError
  | [] => ([], none)
  | item :: rest =>
      match processItem output_sample_rate sinkFails item with
      | .error e => ([], some e)
      | .ok played =>
          let r := runWorker output_sample_rate sinkFails rest
          (played :: r.1, r.2)

/-- The sink invocations a worker makes from a given manager state
(source line 88: the loop body runs only while `stop_audio_thread` is
unset). -/
def workerPlays (m : Manager) (sinkFails : List Nat → Bool) :
    List (List Nat × Int) × Option ItemError :=
  if m.stop_audio_thread then ([], none)
  else runWorker m.output_sample_rate sinkFails m.audio_queue

/-- `queue.get(timeout=1.0)` (source line 91): the bounded pop wait. -/
def queue_get_timeout_seconds : ℚ := 1

/-- `timeout_seconds = 10` (source line 86): the idle-exit window. -/
def worker_idle_timeout_seconds : ℚ := 10

/-- The idle-exit decision on a `queue.Empty` timeout (source line 109):
`if self.last_chunk_time and time.time() - self.last_chunk_time > timeout_seconds`.
Python truthiness of the float `last_chunk_time` is `≠ 0`. -/
def should_exit_on_empty (last_chunk_time now : ℚ) : Bool :=
  decide (last_chunk_time ≠ 0) && decide (worker_idle_timeout_seconds < now - last_chunk_time)

/-- `join()` on the current `audio_thread` (the most recently spawned
thread): after the join it is no longer alive. -/
def joinLast : List Bool → List Bool
  | [] => []
  | [_] => [false]
  | b :: rest => b :: joinLast rest

/-- `cleanup()` (source lines 138-155): set the stop flag, drain the queue
without playing, join the worker, reset the pause deadline. -/
def cleanup (m : Manager) : Manager :=
  { m with
    stop_audio_thread := true
    audio_queue := []
    threads := joinLast m.threads
    pause_until_timestamp := 0 }

/-- The manager calls that other threads may issue concurrently, each made
atomic by the corresponding lock (lifecycle lock for the spawn check,
pause lock for the deadline update); `workerExit i` is thread `i` of the
spawn history finishing on its own (idle timeout or stop flag). -/
inductive MgrEvent where
  | addChunkInner (now : ℚ) (chunk : List Nat) (sample_rate : Int)
  | pauseFor (now d : ℚ)
  | cleanupEv
  | workerExit (i : Nat)

/-- One atomic event applied to the manager state. -/
def stepEvent (m : Manager) : MgrEvent → Manager
  | .addChunkInner now c r => add_chunk_inner m now c r
  | .pauseFor now d => pause_for m now d
  | .cleanupEv => cleanup m
  | .workerExit i => { m with threads := m.threads.set i false }

/-- The number of currently live worker threads. -/
def aliveCount (m : Manager) : Nat := m.threads.count true

/-! ## C1: the pause gate -/

/-- C1: `pause_for(d)` with `d ≤ 0` leaves the pause deadline unchanged;
with `d > 0` it sets the deadline to `max(current, now + d)`; no call ever
decreases the deadline; and a pair of calls `pause_for(d1)` then
`pause_for(d2)` issued at the same instant with no pause already pending
yields an effective pause of `max d1 d2`, never `d1 + d2`. -/
theorem C1_pause_gate (m : Manager) (now d d1 d2 : ℚ) :
    (d ≤ 0 → pause_for m now d = m) ∧
    (0 < d → (pause_for m now d).pause_until_timestamp =
      max m.pause_until_timestamp (now + d)) ∧
    m.pause_until_timestamp ≤ (pause_for m now d).pause_until_timestamp ∧
    (m.pause_until_timestamp ≤ now → 0 < d1 → 0 < d2 →
      (pause_for (pause_for m now d1) now d2).pause_until_timestamp = now + max d1 d2) := by
  have key : ∀ (x : Manager) (e : ℚ), 0 < e →
      (pause_for x now e).pause_until_timestamp = max x.pause_until_timestamp (now + e) := by
    intro x e he
    rw [pause_for, if_neg (not_le.mpr he)]
    by_cases h : now + e > x.pause_until_timestamp
    · rw [if_pos h]
      exact (max_eq_right (le_of_lt h)).symm
    · rw [if_neg h]
      exact (max_eq_left (not_lt.mp h)).symm
  refine ⟨fun h => by rw [pause_for, if_pos h], fun h => key m d h, ?_, ?_⟩
  · by_cases h : 0 < d
    · rw [key m d h]
      exact le_max_left _ _
    · rw [pause_for, if_pos (not_lt.mp h)]
  · intro hp h1 h2
    rw [key _ d2 h2, key m d1 h1,
      max_eq_right (hp.trans (le_add_of_nonneg_right h1.le))]
    exact max_add_add_left now d1 d2

/-- Witness for C1 at concrete inputs. -/
theorem C1_pause_gate_witness :
    pause_for (initManager 16000 0) 5 (-1) = initManager 16000 0 ∧
    (pause_for (pause_for (initManager 16000 0) 5 2) 5 3).pause_until_timestamp
      = 5 + max 2 3 := by
  constructor
  · exact (C1_pause_gate (initManager 16000 0) 5 (-1) 1 1).1 (by norm_num)
  · exact (C1_pause_gate (initManager 16000 0) 5 0 2 3).2.2.2 (by decide)
      (by norm_num) (by norm_num)

/-! ## The frame-slicing loop of `add_chunk` -/

theorem pySliceTo_nonneg (l : List Nat) (k : Int) (h : 0 ≤ k) :
    pySliceTo l k = l.take k.toNat := by
  rw [pySliceTo, if_pos h]

theorem pySliceFrom_nonneg (l : List Nat) (k : Int) (h : 0 ≤ k) :
    pySliceFrom l k = l.drop k.toNat := by
  rw [pySliceFrom, if_pos h]

/-- With a non-positive frame size the slicing loop never exits: for every
fuel bound it is still running (each iteration removes at most zero
bytes while the loop condition stays true). -/
theorem addChunkLoop_nonpos (fs : Int) (h : fs ≤ 0) :
    ∀ (fuel : Nat) (buf : List Nat) (acc : List (List Nat)),
      ∃ a b, addChunkLoop fs fuel buf acc = .running a b := by
  intro fuel
  induction fuel with
  | zero =>
      intro buf acc
      exact ⟨acc, buf, by rw [addChunkLoop, if_pos (h.trans (Int.natCast_nonneg _))]⟩
  | succ n ih =>
      intro buf acc
      rw [addChunkLoop, if_pos (h.trans (Int.natCast_nonneg _))]
      exact ih _ _

/-- With a positive frame size and enough fuel, the slicing loop
terminates, forwarding successive frames of exactly `fs` bytes and
retaining a final buffer shorter than one frame. -/
theorem addChunkLoop_spec (fs : Int) (h1 : 1 ≤ fs) :
    ∀ (fuel : Nat) (buf : List Nat) (acc : List (List Nat)), buf.length < fuel →
      ∃ frames rest,
        addChunkLoop fs fuel buf acc = .done (acc ++ frames) rest ∧
        frames.flatten ++ rest = buf ∧
        (∀ f ∈ frames, f.length = fs.toNat) ∧
        ((rest.length : Int) < fs) := by
  intro fuel
  induction fuel with
  | zero =>
      intro buf acc hlt
      exact absurd hlt (Nat.not_lt_zero _)
  | succ n ih =>
      intro buf acc hlt
      by_cases hc : fs ≤ (buf.length : Int)
      · have h0 : (0 : Int) ≤ fs := le_trans zero_le_one h1
        have hfsnat : fs.toNat ≤ buf.length := by omega
        have hfs1 : 1 ≤ fs.toNat := by omega
        rw [addChunkLoop, if_pos hc, pySliceFrom_nonneg _ _ h0, pySliceTo_nonneg _ _ h0]
        have hlen : (buf.drop fs.toNat).length < n := by
          rw [List.length_drop]
          omega
        obtain ⟨frames, rest, heq, hjoin, hsize, hrest⟩ :=
          ih (buf.drop fs.toNat) (acc ++ [buf.take fs.toNat]) hlen
        refine ⟨buf.take fs.toNat :: frames, rest, ?_, ?_, ?_, hrest⟩
        · rw [heq, List.append_cons, List.append_assoc]
          simp
        · rw [List.flatten_cons, List.append_assoc, hjoin, List.take_append_drop]
        · intro f hf
          rcases List.mem_cons.mp hf with hf | hf
          · rw [hf, List.length_take]
            omega
          · exact hsize f hf
      · rw [addChunkLoop, if_neg hc]
        refine ⟨[], buf, by simp, by simp, by simp, not_le.mp hc⟩

/-! ## Characterization of `add_chunk` -/

theorem add_chunk_inner_fields (m : Manager) (now : ℚ) (c : List Nat) (r : Int) :
    (add_chunk_inner m now c r).audio_queue = m.audio_queue ++ [(c, r)] ∧
    (add_chunk_inner m now c r).inner_chunk_buffer = m.inner_chunk_buffer ∧
    (add_chunk_inner m now c r).output_sample_rate = m.output_sample_rate ∧
    (add_chunk_inner m now c r).last_chunk_time = now ∧
    (add_chunk_inner m now c r).pause_until_timestamp = m.pause_until_timestamp := by
  rw [add_chunk_inner]
  split <;> simp

/-- Effect on the manager fields of forwarding a list of frames through
`add_chunk_inner` one after the other. -/
theorem foldl_add_chunk_inner (now : ℚ) (r : Int) :
    ∀ (frames : List (List Nat)) (m : Manager),
      ((frames.foldl (fun acc f => add_chunk_inner acc now f r) m).audio_queue
          = m.audio_queue ++ frames.map (fun f => (f, r))) ∧
      ((frames.foldl (fun acc f => add_chunk_inner acc now f r) m).inner_chunk_buffer
          = m.inner_chunk_buffer) ∧
      ((frames.foldl (fun acc f => add_chunk_inner acc now f r) m).output_sample_rate
          = m.output_sample_rate) ∧
      ((frames.foldl (fun acc f => add_chunk_inner acc now f r) m).last_chunk_time
          = if frames = [] then m.last_chunk_time else now) ∧
      ((frames.foldl (fun acc f => add_chunk_inner acc now f r) m).pause_until_timestamp
          = m.pause_until_timestamp) := by
  intro frames
  induction frames with
  | nil => intro m; simp
  | cons f fs ih =>
      intro m
      obtain ⟨hq, hb, ho, hl, hp⟩ := add_chunk_inner_fields m now f r
      obtain ⟨ihq, ihb, iho, ihl, ihp⟩ := ih (add_chunk_inner m now f r)
      refine ⟨?_, ?_, ?_, ?_, ?_⟩ <;>
        simp only [List.foldl_cons, List.map_cons, ihq, ihb, iho, ihl, ihp, hq, hb, ho, hl, hp]
      · simp
      · split <;> simp

/-- Full characterization of `add_chunk` when the computed frame size is
positive: the stale-residue rule, exact slicing, the retained remainder,
the enqueue order and the timestamp refresh. -/
theorem add_chunk_spec (m : Manager) (now : ℚ) (chunk : List Nat) (rate : Int)
    (hfs : 1 ≤ chunk_size_bytes rate) :
    ∃ (m2 : Manager) (frames : List (List Nat)),
      add_chunk m now chunk rate = some m2 ∧
      frames.flatten ++ m2.inner_chunk_buffer =
        (if now - m.last_chunk_time > Rat.divInt 3 20 then [] else m.inner_chunk_buffer) ++ chunk ∧
      (∀ f ∈ frames, f.length = (chunk_size_bytes rate).toNat) ∧
      ((m2.inner_chunk_buffer.length : Int) < chunk_size_bytes rate) ∧
      m2.audio_queue = m.audio_queue ++ frames.map (fun f => (f, rate)) ∧
      m2.last_chunk_time = now ∧
      m2.output_sample_rate = m.output_sample_rate ∧
      m2.pause_until_timestamp = m.pause_until_timestamp := by
  simp only [add_chunk]
  set m1 := if now - m.last_chunk_time > Rat.divInt 3 20 then { m with inner_chunk_buffer := [] } else m
    with hm1
  have hm1q : m1.audio_queue = m.audio_queue := by
    rw [hm1]; split <;> rfl
  have hm1b : m1.inner_chunk_buffer =
      (if now - m.last_chunk_time > Rat.divInt 3 20 then [] else m.inner_chunk_buffer) := by
    rw [hm1]; split <;> rfl
  have hm1o : m1.output_sample_rate = m.output_sample_rate := by
    rw [hm1]; split <;> rfl
  have hm1p : m1.pause_until_timestamp = m.pause_until_timestamp := by
    rw [hm1]; split <;> rfl
  obtain ⟨frames, rest, heq, hjoin, hsize, hrest⟩ :=
    addChunkLoop_spec (chunk_size_bytes rate) hfs
      ((m1.inner_chunk_buffer ++ chunk).length + 1) (m1.inner_chunk_buffer ++ chunk) []
      (Nat.lt_succ_self _)
  rw [List.nil_append] at heq
  simp only [heq]
  obtain ⟨fq, fb, fo, fl, fp⟩ :=
    foldl_add_chunk_inner now rate frames
      { m1 with last_chunk_time := now, inner_chunk_buffer := m1.inner_chunk_buffer ++ chunk }
  refine ⟨_, frames, rfl, ?_, hsize, ?_, ?_, ?_, ?_, ?_⟩
  · show frames.flatten ++ rest = _
    rw [← hm1b]
    exact hjoin
  · exact hrest
  · show (frames.foldl (fun acc f => add_chunk_inner acc now f rate) _).audio_queue = _
    rw [fq, hm1q]
  · show (frames.foldl (fun acc f => add_chunk_inner acc now f rate) _).last_chunk_time = now
    rw [fl]
    split <;> rfl
  · show (frames.foldl (fun acc f => add_chunk_inner acc now f rate) _).output_sample_rate = _
    rw [fo, hm1o]
  · show (frames.foldl (fun acc f => add_chunk_inner acc now f rate) _).pause_until_timestamp = _
    rw [fp, hm1p]

/-! ## C5: the chunk accumulator -/

/-- C5: for every `add_chunk` call with a positive frame size: if more
than 150 ms elapsed since the previous call the residual buffered bytes
are discarded first (the new chunk itself is kept); the chunk is appended,
and while the buffered length is at least `chunk_size_bytes(rate)` exactly
one frame of exactly that many bytes is sliced off the front and
forwarded, the remainder retained (on return the buffer holds fewer bytes
than one frame); the call refreshes the last-activity timestamp. -/
theorem C5_add_chunk_slicing (m : Manager) (now : ℚ) (chunk : List Nat) (rate : Int)
    (hfs : 1 ≤ chunk_size_bytes rate) :
    ∃ (m2 : Manager) (frames : List (List Nat)),
      add_chunk m now chunk rate = some m2 ∧
      frames.flatten ++ m2.inner_chunk_buffer =
        (if now - m.last_chunk_time > Rat.divInt 3 20 then [] else m.inner_chunk_buffer) ++ chunk ∧
      (∀ f ∈ frames, f.length = (chunk_size_bytes rate).toNat) ∧
      ((m2.inner_chunk_buffer.length : Int) < chunk_size_bytes rate) ∧
      m2.audio_queue = m.audio_queue ++ frames.map (fun f => (f, rate)) ∧
      m2.last_chunk_time = now := by
  obtain ⟨m2, frames, h1, h2, h3, h4, h5, h6, _, _⟩ := add_chunk_spec m now chunk rate hfs
  exact ⟨m2, frames, h1, h2, h3, h4, h5, h6⟩

/-- Witness for C5: a 10 Hz-rate call (frame size 2 bytes) on a buffer
holding one residual byte, issued at the same instant as the previous
call. -/
theorem C5_add_chunk_slicing_witness :
    ∃ (m2 : Manager) (frames : List (List Nat)),
      add_chunk (Manager.mk [] false [true] [9] 1 0 20) 1 [1, 2, 3] 10 = some m2 ∧
      frames.flatten ++ m2.inner_chunk_buffer =
        (if (1 : ℚ) - 1 > Rat.divInt 3 20 then [] else [9]) ++ [1, 2, 3] ∧
      (∀ f ∈ frames, f.length = (chunk_size_bytes 10).toNat) ∧
      ((m2.inner_chunk_buffer.length : Int) < chunk_size_bytes 10) ∧
      m2.audio_queue = [] ++ frames.map (fun f => (f, (10 : Int))) ∧
      m2.last_chunk_time = 1 :=
  C5_add_chunk_slicing (Manager.mk [] false [true] [9] 1 0 20) 1 [1, 2, 3] 10 (by decide)

/-! ## C4: no guard against degenerate sample rates -/

theorem addChunkLoop_never_done (fs : Int) (h : fs ≤ 0) (fuel : Nat) (buf : List Nat)
    (acc frames : List (List Nat)) (rest : List Nat) :
    addChunkLoop fs fuel buf acc ≠ .done frames rest := by
  obtain ⟨a, b, hr⟩ := addChunkLoop_nonpos fs h fuel buf acc
  rw [hr]
  intro hc
  exact SliceResult.noConfusion hc

theorem add_chunk_none_of_nonpos (m : Manager) (now : ℚ) (chunk : List Nat) (rate : Int)
    (hfs : chunk_size_bytes rate ≤ 0) :
    add_chunk m now chunk rate = none := by
  simp only [add_chunk]
  split
  · rfl
  · rename_i frames rest heq
    exact absurd heq (addChunkLoop_never_done _ hfs _ _ _ _ _)

unseal Rat.add Rat.sub in
/-- C4 counterexample: at sample rate 0 (frame size 0 bytes) `add_chunk`
is not "rejected as a logged no-op": the slicing loop never terminates
(after 3 iterations it is still running) and it has already forwarded
three empty frames, contradicting "it terminates" and "never enqueues a
frame". -/
theorem C4_counterexample :
    add_chunk (initManager 16000 0) 0 [1, 2] 0 = none ∧
    addChunkLoop (chunk_size_bytes 0) 3 [1, 2] [] = .running [[], [], []] [1, 2] := by
  decide

/-- C4 amended: `add_chunk` contains no guard for degenerate sample rates.
Whenever the computed frame size is not positive (in particular for any
`rate ≤ 0`), the slicing loop never exits — under every fuel bound it is
still running — so the call never terminates (modelled as `none`), rather
than terminating as a logged no-op. -/
theorem C4_no_guard_amended (m : Manager) (now : ℚ) (chunk : List Nat) (rate : Int)
    (hrate : rate ≤ 0) :
    chunk_size_bytes rate ≤ 0 ∧
    add_chunk m now chunk rate = none ∧
    (∀ (fuel : Nat) (buf : List Nat) (acc : List (List Nat)),
      ∃ a b, addChunkLoop (chunk_size_bytes rate) fuel buf acc = .running a b) := by
  have hfs : chunk_size_bytes rate ≤ 0 := by
    have h2 : (0 : Int) ≤ -(2 * rate) := by omega
    have h3 := Int.tdiv_nonneg h2 (by omega : (0 : Int) ≤ 10)
    rw [chunk_size_bytes, show (2 * rate) = -(-(2 * rate)) by ring, Int.neg_tdiv]
    omega
  exact ⟨hfs, add_chunk_none_of_nonpos m now chunk rate hfs, addChunkLoop_nonpos _ hfs⟩

/-- Witness for the amended C4 at the concrete rate 0. -/
theorem C4_no_guard_amended_witness :
    chunk_size_bytes 0 ≤ 0 ∧ add_chunk (initManager 16000 0) 1 [1] 0 = none :=
  ⟨(C4_no_guard_amended (initManager 16000 0) 1 [1] 0 (by decide)).1,
   (C4_no_guard_amended (initManager 16000 0) 1 [1] 0 (by decide)).2.1⟩

/-! ## C10: buffered residue is not segregated by sample rate -/

/-- C10: residual bytes left in the accumulation buffer by a call at rate
`r1` are, when the next call arrives within 150 ms at a different rate
`r2`, prepended to the new chunk; the combined buffer is sliced using
`chunk_size_bytes r2` and the resulting frames are forwarded tagged `r2`,
reinterpreting the `r1` bytes at the new rate. -/
theorem C10_residue_reinterpreted (m m1 : Manager) (t1 t2 : ℚ) (c1 c2 : List Nat)
    (r1 r2 : Int) (h1 : 1 ≤ chunk_size_bytes r1) (h2 : 1 ≤ chunk_size_bytes r2)
    (_hr : r2 ≠ r1) (hm1 : add_chunk m t1 c1 r1 = some m1) (hgap : t2 - t1 ≤ Rat.divInt 3 20) :
    ∃ (m2 : Manager) (frames : List (List Nat)),
      add_chunk m1 t2 c2 r2 = some m2 ∧
      frames.flatten ++ m2.inner_chunk_buffer = m1.inner_chunk_buffer ++ c2 ∧
      (∀ f ∈ frames, f.length = (chunk_size_bytes r2).toNat) ∧
      m2.audio_queue = m1.audio_queue ++ frames.map (fun f => (f, r2)) := by
  obtain ⟨m1x, frames1, hax, _, _, _, _, hlast, _, _⟩ := add_chunk_spec m t1 c1 r1 h1
  have hm1x : m1x = m1 := Option.some.inj (hax.symm.trans hm1)
  obtain ⟨m2, frames, ha, hjoin, hsize, _, hq, _, _, _⟩ := add_chunk_spec m1 t2 c2 r2 h2
  have hstale : ¬ (t2 - m1.last_chunk_time > Rat.divInt 3 20) := by
    rw [← hm1x, hlast]
    exact not_lt.mpr hgap
  rw [if_neg hstale] at hjoin
  exact ⟨m2, frames, ha, hjoin, hsize, hq⟩

unseal Rat.add Rat.sub in
/-- Witness for C10: residue byte 4 from a 15 Hz-rate call is resliced at
rate 10 together with the next chunk, issued within the 150 ms window. -/
theorem C10_residue_reinterpreted_witness :
    ∃ (m2 : Manager) (frames : List (List Nat)),
      add_chunk (Manager.mk [([1,2,3], 15)] false [true] [4] 1 0 20) 1 [5, 6, 7] 10
        = some m2 ∧
      frames.flatten ++ m2.inner_chunk_buffer = [4] ++ [5, 6, 7] ∧
      (∀ f ∈ frames, f.length = (chunk_size_bytes 10).toNat) ∧
      m2.audio_queue = [([1,2,3], 15)] ++ frames.map (fun f => (f, (10 : Int))) :=
  C10_residue_reinterpreted (initManager 20 0)
    (Manager.mk [([1,2,3], 15)] false [true] [4] 1 0 20) 1 1 [1, 2, 3, 4] [5, 6, 7]
    15 10 (by decide) (by decide) (by decide) (by decide) (by decide)

/-! ## C2: the sample-rate converter -/

/-- C2: the conversion returns the frame unchanged when the source rate
equals the output rate; when the output rate is an exact integer multiple
`k > 1` of the source rate it returns the frame with each 16-bit sample
duplicated `k` times in order (multiplying the sample count by `k`, e.g.
doubling it for 8000→16000); in every other case — including an output
rate lower than the source rate — it delegates to the generic fallback
conversion routine `_upsample`. -/
theorem C2_converter (out r k : Int) (chunk : List Nat) (s : List Int) :
    (upsample_chunk_to_output_sample_rate out chunk out = .ok chunk) ∧
    (0 < r → 1 < k → bytesToSamples chunk = some s →
      upsample_chunk_to_output_sample_rate (k * r) chunk r =
        .ok (samplesToBytes (s.flatMap (fun x => List.replicate k.toNat x))) ∧
      (s.flatMap (fun x => List.replicate k.toNat x)).length = k.toNat * s.length) ∧
    (r ≠ out → r ≠ 0 → (Int.fmod out r ≠ 0 ∨ Int.fdiv out r ≤ 1) →
      upsample_chunk_to_output_sample_rate out chunk r = upsampleFallback chunk r out) ∧
    (0 < r → out < r →
      upsample_chunk_to_output_sample_rate out chunk r = upsampleFallback chunk r out) := by
  have hfall : ∀ o : Int, r ≠ o → r ≠ 0 → (Int.fmod o r ≠ 0 ∨ Int.fdiv o r ≤ 1) →
      upsample_chunk_to_output_sample_rate o chunk r = upsampleFallback chunk r o := by
    intro o hne hnz hcond
    rw [upsample_chunk_to_output_sample_rate, if_neg hne, if_neg hnz, if_pos hcond]
  refine ⟨?_, ?_, hfall out, ?_⟩
  · rw [upsample_chunk_to_output_sample_rate, if_pos rfl]
  · intro hr hk hparse
    have hne : r ≠ k * r := ne_of_lt ((lt_mul_iff_one_lt_left hr).mpr hk)
    have hnz : r ≠ 0 := ne_of_gt hr
    have hcond : ¬ (Int.fmod (k * r) r ≠ 0 ∨ Int.fdiv (k * r) r ≤ 1) := by
      push_neg
      exact ⟨Int.mul_fmod_left k r, by rw [Int.mul_fdiv_cancel _ hnz]; exact hk⟩
    constructor
    · rw [upsample_chunk_to_output_sample_rate, if_neg hne, if_neg hnz, if_neg hcond,
        Int.mul_fdiv_cancel _ hnz, hparse]
    · have hlen : ∀ t : List Int,
          (t.flatMap fun x => List.replicate k.toNat x).length = k.toNat * t.length := by
        intro t
        induction t with
        | nil => simp
        | cons a u ih =>
            simp only [List.flatMap_cons, List.length_append, List.length_replicate, ih,
              List.length_cons]
            ring
      exact hlen s
  · intro hr hlt
    have hnz : r ≠ 0 := ne_of_gt hr
    refine hfall out (fun h => absurd h.symm (ne_of_lt hlt)) hnz (Or.inr ?_)
    rw [Int.fdiv_eq_ediv _ hr.le]
    have : out / r < 1 := by
      rw [Int.ediv_lt_iff_lt_mul hr, one_mul]
      exact hlt
    omega

/-- Witness for C2: 8000→16000 duplicates each of the three samples
`[100, -200, 300]` once, doubling the sample count from 3 to 6. -/
theorem C2_converter_witness :
    upsample_chunk_to_output_sample_rate (2 * 8000) [100, 0, 56, 255, 44, 1] 8000 =
      .ok (samplesToBytes ([100, -200, 300].flatMap (fun x => List.replicate (2:Int).toNat x))) ∧
    ([100, -200, 300].flatMap (fun x => List.replicate (2:Int).toNat x)).length
      = (2:Int).toNat * [100, -200, 300].length :=
  (C2_converter (2 * 8000) 8000 2 [100, 0, 56, 255, 44, 1] [100, -200, 300]).2.1
    (by decide) (by decide) (by decide)

/-! ## C3: worker error handling -/

/-- C3 counterexample: a malformed first item (odd byte length, so
`np.frombuffer` raises) terminates the worker with the well-formed second
item never played, and a sink exception likewise terminates the worker —
the loop does not continue to the next item. -/
theorem C3_counterexample :
    runWorker 16000 sinkNeverFails [([1], 8000), ([0, 0], 16000)]
      = ([], some ItemError.malformedChunk) ∧
    runWorker 16000 sinkAlwaysFails [([0, 0], 16000), ([0, 0], 16000)]
      = ([], some ItemError.sinkError) := by
  decide

/-- C3 amended: the worker's `try` catches only `queue.Empty`.  A failure
while processing a dequeued item (malformed chunk byte length, conversion
error, or an exception raised by the sink callback) is not caught: the
exception propagates, the worker terminates at that item with nothing
played from it on, and the remaining queued items are never processed.
Only the empty-queue timeout is handled (the idle-timeout path). -/
theorem C3_uncaught_item_failure (out : Int) (sf : List Nat → Bool)
    (bad : List Nat × Int) (post : List (List Nat × Int)) (e : ItemError)
    (h : processItem out sf bad = .error e) :
    runWorker out sf (bad :: post) = ([], some e) ∧
    runWorker out sf [] = ([], none) := by
  constructor
  · simp only [runWorker, h]
  · rfl

/-- Witness for the amended C3: a raising sink kills the worker on the
first frame. -/
theorem C3_uncaught_item_failure_witness :
    runWorker 16000 sinkAlwaysFails [([7, 0], 8000)] = ([], some ItemError.sinkError) ∧
    runWorker 16000 sinkAlwaysFails [] = ([], none) :=
  C3_uncaught_item_failure 16000 sinkAlwaysFails ([7, 0], 8000) [] ItemError.sinkError
    (by rfl)

/-! ## C7: cleanup -/

theorem joinLast_eq (l : List Bool) :
    joinLast l = if l.isEmpty then [] else l.dropLast ++ [false] := by
  induction l with
  | nil => rfl
  | cons a rest ih =>
      cases rest with
      | nil => rfl
      | cons c t =>
          show a :: joinLast (c :: t) = _
          rw [ih]
          simp

theorem dropLast_joinLast (l : List Bool) : (joinLast l).dropLast = l.dropLast := by
  rw [joinLast_eq]
  cases l with
  | nil => rfl
  | cons a rest => simp

theorem joinLast_joinLast (l : List Bool) : joinLast (joinLast l) = joinLast l := by
  rw [joinLast_eq l]
  cases l with
  | nil => rfl
  | cons a rest =>
      rw [joinLast_eq]
      simp

theorem count_true_joinLast (l : List Bool) (h : ∀ b ∈ l.dropLast, b = false) :
    (joinLast l).count true = 0 := by
  refine List.count_eq_zero.mpr (fun hc => ?_)
  rw [joinLast_eq] at hc
  rcases l with _ | ⟨a, rest⟩
  · simp at hc
  · simp only [List.isEmpty_cons, Bool.false_eq_true, if_false] at hc
    rcases List.mem_append.mp hc with hc2 | hc2
    · exact absurd (h true hc2) (by decide)
    · simp at hc2

/-- C7: `cleanup` sets the stop flag, drains the FIFO without playing the
remaining items, joins the worker (no thread stays alive when the spawn
history is well formed, i.e. all but the most recent thread already dead)
and resets the pause deadline to zero; a worker running from the cleaned
state makes no sink invocation, so frames that were enqueued but not yet
played never reach the sink; and calling `cleanup` again yields the same
state, so repeated calls are safe. -/
theorem C7_cleanup (m : Manager) (sf : List Nat → Bool) :
    (cleanup m).stop_audio_thread = true ∧
    (cleanup m).audio_queue = [] ∧
    (cleanup m).pause_until_timestamp = 0 ∧
    workerPlays (cleanup m) sf = ([], none) ∧
    ((∀ b ∈ m.threads.dropLast, b = false) → aliveCount (cleanup m) = 0) ∧
    cleanup (cleanup m) = cleanup m := by
  refine ⟨rfl, rfl, rfl, rfl, ?_, ?_⟩
  · intro h
    exact count_true_joinLast m.threads h
  · show cleanup (cleanup m) = cleanup m
    simp [cleanup, joinLast_joinLast]

/-- Witness for C7 on a concrete manager with a pending frame, a live
worker and a pending pause. -/
theorem C7_cleanup_witness :
    cleanup (cleanup (Manager.mk [([1, 2], 16000)] false [true] [] 0 5 16000))
      = cleanup (Manager.mk [([1, 2], 16000)] false [true] [] 0 5 16000) ∧
    workerPlays (cleanup (Manager.mk [([1, 2], 16000)] false [true] [] 0 5 16000))
      sinkNeverFails = ([], none) ∧
    aliveCount (cleanup (Manager.mk [([1, 2], 16000)] false [true] [] 0 5 16000)) = 0 :=
  ⟨(C7_cleanup (Manager.mk [([1, 2], 16000)] false [true] [] 0 5 16000) sinkNeverFails).2.2.2.2.2,
   (C7_cleanup (Manager.mk [([1, 2], 16000)] false [true] [] 0 5 16000) sinkNeverFails).2.2.2.1,
   (C7_cleanup (Manager.mk [([1, 2], 16000)] false [true] [] 0 5 16000) sinkNeverFails).2.2.2.2.1
     (by decide)⟩

/-! ## C9: at most one live worker -/

/-- Every thread spawned before the most recent one is dead.  This is the
inductive invariant behind the double-checked spawn: `add_chunk_inner`
examines only `audio_thread` (the most recent spawn), so older threads
must already have exited for the spawn decision to be sound. -/
def OlderDead (m : Manager) : Prop := ∀ b ∈ m.threads.dropLast, b = false

theorem all_false_of_olderDead {l : List Bool} (h1 : ∀ b ∈ l.dropLast, b = false)
    (h2 : l.getLast? ≠ some true) : ∀ b ∈ l, b = false := by
  rcases l.eq_nil_or_concat with rfl | ⟨l2, a, rfl⟩
  · intro b hb
    cases hb
  · rw [List.concat_eq_append] at h1 h2 ⊢
    rw [List.dropLast_concat] at h1
    rw [List.getLast?_concat] at h2
    intro b hb
    rcases List.mem_append.mp hb with hb2 | hb2
    · exact h1 b hb2
    · have ha : a = false := by
        cases a
        · rfl
        · exact absurd rfl h2
      rw [List.mem_singleton.mp hb2, ha]

theorem olderDead_set (l : List Bool) (i : Nat) (h : ∀ b ∈ l.dropLast, b = false) :
    ∀ b ∈ (l.set i false).dropLast, b = false := by
  intro b hb
  obtain ⟨j, hj, hbj⟩ := List.mem_iff_getElem.mp hb
  rw [List.getElem_dropLast] at hbj
  rw [List.getElem_set] at hbj
  by_cases hij : i = j
  · rw [if_pos hij] at hbj
    exact hbj.symm
  · rw [if_neg hij] at hbj
    have hjlt : j < l.dropLast.length := by
      have := hj
      simp only [List.length_dropLast, List.length_set] at this ⊢
      exact this
    apply h b
    rw [← hbj, ← List.getElem_dropLast l j hjlt]
    exact List.getElem_mem hjlt

theorem olderDead_step (m : Manager) (e : MgrEvent) (h : OlderDead m) :
    OlderDead (stepEvent m e) := by
  cases e with
  | addChunkInner now c r =>
      show OlderDead (add_chunk_inner m now c r)
      rw [add_chunk_inner]
      by_cases hc : m.threads.getLast? = some true
      · rw [if_pos hc]
        exact h
      · rw [if_neg hc]
        show ∀ b ∈ (m.threads ++ [true]).dropLast, b = false
        rw [List.dropLast_concat]
        exact all_false_of_olderDead h hc
  | pauseFor now d =>
      show OlderDead (pause_for m now d)
      rw [pause_for]
      split
      · exact h
      · dsimp only
        split
        · exact h
        · exact h
  | cleanupEv =>
      show ∀ b ∈ (joinLast m.threads).dropLast, b = false
      rw [dropLast_joinLast]
      exact h
  | workerExit i =>
      exact olderDead_set m.threads i h

theorem aliveCount_le_one_of_olderDead (m : Manager) (h : OlderDead m) :
    aliveCount m ≤ 1 := by
  show m.threads.count true ≤ 1
  rcases m.threads.eq_nil_or_concat with hl | ⟨l2, a, hl⟩
  · rw [hl]
    exact Nat.zero_le 1
  · have h2 : ∀ b ∈ l2, b = false := by
      have := h
      rw [OlderDead, hl, List.concat_eq_append, List.dropLast_concat] at this
      exact this
    have h0 : l2.count true = 0 :=
      List.count_eq_zero.mpr (fun hc => absurd (h2 true hc) (by decide))
    rw [hl, List.concat_eq_append, List.count_append, h0]
    cases a <;> simp

/-- C9: at most one live playback worker exists at any time.  Starting
from a fresh manager, after any sequence of (lock-serialized, hence
atomic) events — enqueues with their double-checked spawn, pause
requests, cleanups and worker exits — the number of live worker threads
never exceeds one. -/
theorem C9_single_worker (out : Int) (t0 : ℚ) (events : List MgrEvent) :
    aliveCount (events.foldl stepEvent (initManager out t0)) ≤ 1 := by
  have hinv : ∀ (evs : List MgrEvent) (m : Manager), OlderDead m →
      OlderDead (evs.foldl stepEvent m) := by
    intro evs
    induction evs with
    | nil => exact fun m h => h
    | cons e rest ih =>
        intro m h
        exact ih _ (olderDead_step m e h)
  refine aliveCount_le_one_of_olderDead _ (hinv events _ ?_)
  intro b hb
  simp [initManager] at hb

/-! ## C8: idle timeout and transparent respawn -/

theorem runWorker_singleton (out : Int) (sf : List Nat → Bool) (c conv : List Nat) (r : Int)
    (hconv : upsample_chunk_to_output_sample_rate out c r = .ok conv)
    (hsink : sf conv = false) :
    runWorker out sf [(c, r)] = ([(conv, out)], none) := by
  simp only [runWorker, processItem, hconv, hsink, Bool.false_eq_true, if_false]

/-- C8: the worker pops the next item with a bounded 1-second wait; on an
empty-queue timeout it terminates exactly when more than 10 seconds have
elapsed since the last chunk (`last_chunk_time` is a positive
`time.time()` value in every reachable state) and otherwise keeps
waiting; and after an idle termination, the next `add_chunk_inner` call
respawns a worker (stop flag cleared, worker alive) whose frame plays,
with no manual restart required. -/
theorem C8_idle_timeout_and_respawn (m : Manager) (now t : ℚ) (c conv : List Nat) (r : Int)
    (sf : List Nat → Bool) (hlast : 0 < t) (hdead : m.threads.getLast? ≠ some true)
    (hq : m.audio_queue = [])
    (hconv : upsample_chunk_to_output_sample_rate m.output_sample_rate c r = .ok conv)
    (hsink : sf conv = false) :
    queue_get_timeout_seconds = 1 ∧
    worker_idle_timeout_seconds = 10 ∧
    (should_exit_on_empty t now = true ↔ 10 < now - t) ∧
    (add_chunk_inner m now c r).threads.getLast? = some true ∧
    (add_chunk_inner m now c r).stop_audio_thread = false ∧
    workerPlays (add_chunk_inner m now c r) sf = ([(conv, m.output_sample_rate)], none) := by
  have hstep : add_chunk_inner m now c r =
      { m with
        audio_queue := m.audio_queue ++ [(c, r)]
        last_chunk_time := now
        stop_audio_thread := false
        threads := m.threads ++ [true] } := by
    rw [add_chunk_inner]
    exact if_neg hdead
  refine ⟨rfl, rfl, ?_, ?_, ?_, ?_⟩
  · rw [should_exit_on_empty]
    simp [ne_of_gt hlast, worker_idle_timeout_seconds]
  · rw [hstep]
    exact List.getLast?_concat m.threads
  · rw [hstep]
  · rw [hstep, workerPlays]
    simp only [Bool.false_eq_true, if_false, hq, List.nil_append]
    exact runWorker_singleton m.output_sample_rate sf c conv r hconv hsink

/-- Witness for C8: a manager that has gone through `cleanup` (worker
dead, stop flag set, queue drained) transparently plays the next frame
after one `add_chunk_inner` call; the idle decision fires at 11 s of
silence. -/
theorem C8_idle_timeout_and_respawn_witness :
    queue_get_timeout_seconds = 1 ∧
    worker_idle_timeout_seconds = 10 ∧
    (should_exit_on_empty 1 12 = true ↔ 10 < (12 : ℚ) - 1) ∧
    (add_chunk_inner (cleanup (initManager 20 0)) 12 [0, 5] 20).threads.getLast?
      = some true ∧
    (add_chunk_inner (cleanup (initManager 20 0)) 12 [0, 5] 20).stop_audio_thread = false ∧
    workerPlays (add_chunk_inner (cleanup (initManager 20 0)) 12 [0, 5] 20) sinkNeverFails
      = ([([0, 5], (20 : Int))], none) :=
  C8_idle_timeout_and_respawn (cleanup (initManager 20 0)) 12 1 [0, 5] [0, 5] 20
    sinkNeverFails (by norm_num) (by decide) (by decide) (by decide) (by decide)

/-! ## C6: frames through the whole pipeline -/

/-- A sequence of `add_chunk` calls, each given as (time, chunk, rate);
`none` if any call diverges in the slicing loop. -/
def runAddChunks (m : Manager) : List (ℚ × List Nat × Int) → Option Manager
  | [] => some m
  | (now, c, r) :: rest =>
      match add_chunk m now c r with
      | none => none
      | some m2 => runAddChunks m2 rest

theorem chunk_size_of_mul10 (u : Int) : chunk_size_bytes (10 * u) = 2 * u := by
  rw [chunk_size_bytes, show 2 * (10 * u) = 10 * (2 * u) by ring]
  exact Int.mul_tdiv_cancel_left _ (by norm_num)

theorem bytesToSamples_of_even :
    ∀ (n : Nat) (c : List Nat), c.length = 2 * n →
      ∃ s, bytesToSamples c = some s ∧ s.length = n := by
  intro n
  induction n with
  | zero =>
      intro c hc
      have : c = [] := List.eq_nil_of_length_eq_zero (by omega)
      exact ⟨[], by rw [this]; rfl, rfl⟩
  | succ k ih =>
      intro c hc
      match c with
      | [] => simp at hc
      | [x] => simp at hc; omega
      | lo :: hi :: rest =>
          have hrest : rest.length = 2 * k := by
            simp only [List.length_cons] at hc
            omega
          obtain ⟨s, hs, hslen⟩ := ih rest hrest
          refine ⟨toInt16 (lo + 256 * hi) :: s, ?_, by simp [hslen]⟩
          show (bytesToSamples rest).map (fun s => toInt16 (lo + 256 * hi) :: s) = _
          rw [hs]
          rfl

theorem length_samplesToBytes (s : List Int) : (samplesToBytes s).length = 2 * s.length := by
  induction s with
  | nil => rfl
  | cons a t ih =>
      show (int16Bytes a ++ samplesToBytes t).length = 2 * (a :: t).length
      rw [List.length_append, ih, List.length_cons]
      show 2 + 2 * t.length = 2 * (t.length + 1)
      ring

theorem length_flatMap_replicate (k : Nat) (s : List Int) :
    (s.flatMap fun x => List.replicate k x).length = k * s.length := by
  induction s with
  | nil => simp
  | cons a t ih =>
      simp only [List.flatMap_cons, List.length_append, List.length_replicate, ih,
        List.length_cons]
      ring

/-- Conversion of one well-formed queue item: a chunk of exactly one
source-rate frame, at a positive rate that is a multiple of 10 dividing
the output rate, converts successfully to exactly one output-rate frame
(identity when the rates agree, sample repetition otherwise). -/
theorem processItem_good (out : Int) (hout : 0 < out) (c : List Nat) (r : Int)
    (hr : 0 < r) (h10 : r % 10 = 0) (hdvd : out % r = 0)
    (hlen : c.length = (chunk_size_bytes r).toNat) :
    ∃ conv : List Nat,
      processItem out sinkNeverFails (c, r) = .ok (conv, out) ∧
      conv.length = (chunk_size_bytes out).toNat ∧
      upsample_chunk_to_output_sample_rate out c r = .ok conv := by
  by_cases heq : r = out
  · refine ⟨c, ?_, by rw [← heq]; exact hlen, ?_⟩
    · simp [processItem, upsample_chunk_to_output_sample_rate, heq, sinkNeverFails]
    · rw [upsample_chunk_to_output_sample_rate, if_pos heq]
  · obtain ⟨n, hn⟩ : ∃ n : Nat, r = 10 * (n : Int) := ⟨(r / 10).toNat, by omega⟩
    have hd : r ∣ out := Int.dvd_of_emod_eq_zero hdvd
    obtain ⟨w, hw⟩ := hd
    have hw0 : 0 < w := by
      by_contra hle
      push_neg at hle
      nlinarith [hw, hout, hr]
    obtain ⟨q, hq⟩ : ∃ q : Nat, w = (q : Int) := ⟨w.toNat, by omega⟩
    have hw2 : 2 ≤ w := by
      rcases lt_or_ge w 2 with h2 | h2
      · have hw1 : w = 1 := by omega
        exact absurd (by rw [hw, hw1, mul_one] : out = r) (fun h => heq h.symm)
      · exact h2
    have hr0 : r ≠ 0 := ne_of_gt hr
    have hfd : Int.fdiv out r = w := by
      rw [hw]
      exact Int.mul_fdiv_cancel_left _ hr0
    have hfm : Int.fmod out r = 0 := by
      rw [Int.fmod_eq_emod _ hr.le]
      exact hdvd
    have hcond : ¬ (Int.fmod out r ≠ 0 ∨ Int.fdiv out r ≤ 1) := by
      push_neg
      exact ⟨hfm, by rw [hfd]; omega⟩
    have hcs : chunk_size_bytes r = 2 * (n : Int) := by
      rw [hn]
      exact chunk_size_of_mul10 _
    have hcl : c.length = 2 * n := by omega
    obtain ⟨s, hparse, hslen⟩ := bytesToSamples_of_even n c hcl
    have hup : upsample_chunk_to_output_sample_rate out c r
        = .ok (samplesToBytes (s.flatMap fun x => List.replicate w.toNat x)) := by
      rw [upsample_chunk_to_output_sample_rate, if_neg heq, if_neg hr0, if_neg hcond, hfd,
        hparse]
    refine ⟨samplesToBytes (s.flatMap fun x => List.replicate w.toNat x), ?_, ?_, hup⟩
    · simp only [processItem, hup, sinkNeverFails, Bool.false_eq_true, if_false]
    · rw [length_samplesToBytes, length_flatMap_replicate, hslen]
      have hout10 : out = 10 * ((n : Int) * w) := by
        rw [hw, hn]
        ring
      rw [hout10, chunk_size_of_mul10]
      have hwt : w.toNat = q := by omega
      have hcast : 2 * ((n : Int) * w) = ((2 * (n * q) : Nat) : Int) := by
        rw [hq]
        push_cast
        ring
      rw [hwt, hcast, Int.toNat_natCast]
      ring

theorem runAddChunks_good (out : Int) :
    ∀ (calls : List (ℚ × List Nat × Int)) (m : Manager),
      (∀ x ∈ calls, 0 < x.2.2 ∧ x.2.2 % 10 = 0 ∧ out % x.2.2 = 0) →
      (∀ p ∈ m.audio_queue, 0 < p.2 ∧ p.2 % 10 = 0 ∧ out % p.2 = 0 ∧
          p.1.length = (chunk_size_bytes p.2).toNat) →
      ∃ m2, runAddChunks m calls = some m2 ∧
        ∀ p ∈ m2.audio_queue, 0 < p.2 ∧ p.2 % 10 = 0 ∧ out % p.2 = 0 ∧
          p.1.length = (chunk_size_bytes p.2).toNat := by
  intro calls
  induction calls with
  | nil => exact fun m _ hq => ⟨m, rfl, hq⟩
  | cons call rest ih =>
      intro m hc hq
      obtain ⟨now, c, r⟩ := call
      have hcall := hc (now, c, r) (List.mem_cons_self _ _)
      have hr1 : 0 < r := hcall.1
      have hr2 : r % 10 = 0 := hcall.2.1
      have hr3 : out % r = 0 := hcall.2.2
      have hfs : 1 ≤ chunk_size_bytes r := by
        obtain ⟨n, hn⟩ : ∃ n : Nat, r = 10 * (n : Int) := ⟨(r / 10).toNat, by omega⟩
        rw [hn, chunk_size_of_mul10]
        omega
      obtain ⟨m2, frames, ha, hjoin, hsize, hrest2, hqueue, hlast2, _, _⟩ :=
        add_chunk_spec m now c r hfs
      have hstep : runAddChunks m ((now, c, r) :: rest) = runAddChunks m2 rest := by
        simp only [runAddChunks, ha]
      rw [hstep]
      refine ih m2 (fun x hx => hc x (List.mem_cons_of_mem _ hx)) ?_
      intro p hp
      rw [hqueue] at hp
      rcases List.mem_append.mp hp with hp2 | hp2
      · exact hq p hp2
      · obtain ⟨f, hf, rfl⟩ := List.mem_map.mp hp2
        exact ⟨hr1, hr2, hr3, hsize f hf⟩

theorem getD_eq_getElem_of_lt (l : List (List Nat × Int)) (d : List Nat × Int) (i : Nat)
    (h : i < l.length) : l.getD i d = l[i] := by
  rw [List.getD_eq_getElem?_getD, List.getElem?_eq_getElem h]
  rfl

theorem runWorker_all_ok (out : Int) (sf : List Nat → Bool)
    (g : List Nat × Int → List Nat × Int) :
    ∀ items : List (List Nat × Int),
      (∀ p ∈ items, processItem out sf p = .ok (g p)) →
      runWorker out sf items = (items.map g, none) := by
  intro items
  induction items with
  | nil => intro h; rfl
  | cons p rest ih =>
      intro h
      have hp := h p (List.mem_cons_self _ _)
      simp only [runWorker, hp, List.map_cons]
      rw [ih (fun x hx => h x (List.mem_cons_of_mem _ hx))]

/-- The worker's per-item effect on a well-formed item: the converted
bytes tagged with the output rate (the error branch is unreachable for
the items this development applies it to). -/
def playedItem (out : Int) (p : List Nat × Int) : List Nat × Int :=
  match upsample_chunk_to_output_sample_rate out p.1 p.2 with
  | .ok conv => (conv, out)
  | .error => ([], out)

/-- C6 amended: for any sequence of `add_chunk` calls whose source rates
are positive multiples of 10 dividing the output rate (so conversion is
the identity or integer-ratio sample repetition), the sink callback is
invoked exactly once per completed frame, in append order with no
reordering — the i-th invocation converts the i-th enqueued frame — and
every invocation receives exactly `chunk_size_bytes(output_rate)` bytes
tagged with the output sample rate. -/
theorem C6_frames_played_in_order (out : Int) (t0 : ℚ)
    (calls : List (ℚ × List Nat × Int)) (hout : 0 < out)
    (hrates : ∀ x ∈ calls, 0 < x.2.2 ∧ x.2.2 % 10 = 0 ∧ out % x.2.2 = 0) :
    ∃ (mN : Manager) (played : List (List Nat × Int)),
      runAddChunks (initManager out t0) calls = some mN ∧
      runWorker out sinkNeverFails mN.audio_queue = (played, none) ∧
      played.length = mN.audio_queue.length ∧
      ∀ i, i < played.length →
        (played.getD i ([], 0)).2 = out ∧
        (played.getD i ([], 0)).1.length = (chunk_size_bytes out).toNat ∧
        upsample_chunk_to_output_sample_rate out
            (mN.audio_queue.getD i ([], 0)).1 (mN.audio_queue.getD i ([], 0)).2
          = ConvResult.ok (played.getD i ([], 0)).1 := by
  obtain ⟨mN, hrun, hgood⟩ := runAddChunks_good out calls (initManager out t0) hrates
    (by intro p hp; simp [initManager] at hp)
  have hall : ∀ p ∈ mN.audio_queue,
      processItem out sinkNeverFails p = .ok (playedItem out p) := by
    intro p hp
    obtain ⟨h1, h2, h3, h4⟩ := hgood p hp
    obtain ⟨conv, hpi, hclen, hup⟩ := processItem_good out hout p.1 p.2 h1 h2 h3 h4
    rw [playedItem, hup]
    exact hpi
  have hworker := runWorker_all_ok out sinkNeverFails (playedItem out) mN.audio_queue hall
  refine ⟨mN, mN.audio_queue.map (playedItem out), hrun, hworker, by simp, ?_⟩
  intro i hi
  have hi2 : i < mN.audio_queue.length := by
    rw [List.length_map] at hi
    exact hi
  have e1 : (mN.audio_queue.map (playedItem out)).getD i ([], 0)
      = playedItem out (mN.audio_queue[i]) := by
    rw [getD_eq_getElem_of_lt _ _ i hi, List.getElem_map]
  have e2 : mN.audio_queue.getD i ([], 0) = mN.audio_queue[i] :=
    getD_eq_getElem_of_lt _ _ i hi2
  obtain ⟨h1, h2, h3, h4⟩ := hgood (mN.audio_queue[i]) (List.getElem_mem hi2)
  obtain ⟨conv, hpi, hclen, hup⟩ :=
    processItem_good out hout (mN.audio_queue[i]).1 (mN.audio_queue[i]).2 h1 h2 h3 h4
  have e3 : playedItem out (mN.audio_queue[i]) = (conv, out) := by
    rw [playedItem, hup]
  refine ⟨?_, ?_, ?_⟩
  · rw [e1, e3]
  · rw [e1, e3]
    exact hclen
  · rw [e2, e1, e3]
    exact hup

unseal Rat.add Rat.sub in
/-- C6 counterexample: with output rate 66 and source rate 33 (not a
multiple of 10), one `add_chunk` call enqueues one 6-byte frame
(`chunk_size_bytes 33 = 6`); the worker plays it, via integer-ratio
sample duplication, as 12 bytes tagged 66 — but
`chunk_size_bytes 66 = 13`, so the invocation does not receive exactly
`frame_size_bytes(output_rate)` bytes. -/
theorem C6_counterexample :
    (runAddChunks (initManager 66 0) [(1, [5, 0, 6, 0, 7, 0], 33)]).map
        (fun m => (runWorker 66 sinkNeverFails m.audio_queue).1.map
          (fun p => (p.1.length, p.2)))
      = some [(12, 66)] ∧
    chunk_size_bytes 66 = 13 := by
  decide

/-- Witness for the amended C6: a single call at rate 10 with output rate
20 enqueues two 2-byte frames, each played as one 4-byte frame at rate
20. -/
theorem C6_frames_played_in_order_witness :
    ∃ (mN : Manager) (played : List (List Nat × Int)),
      runAddChunks (initManager 20 0) [(1, [1, 2, 3, 4], 10)] = some mN ∧
      runWorker 20 sinkNeverFails mN.audio_queue = (played, none) ∧
      played.length = mN.audio_queue.length ∧
      ∀ i, i < played.length →
        (played.getD i ([], 0)).2 = 20 ∧
        (played.getD i ([], 0)).1.length = (chunk_size_bytes 20).toNat ∧
        upsample_chunk_to_output_sample_rate 20
            (mN.audio_queue.getD i ([], 0)).1 (mN.audio_queue.getD i ([], 0)).2
          = ConvResult.ok (played.getD i ([], 0)).1 :=
  C6_frames_played_in_order 20 0 [(1, [1, 2, 3, 4], 10)] (by decide) (by decide)
